import Mathlib

/-!
Verification of the cross-section core of the Blender add-on
"Cross section Leger" (`src/__init__.py`).

The core under study is the function `section` (lines 114–205): it
classifies every mesh edge against the plane z = 0 in plane-local
coordinates (after applying the transform `itM`), collects intersection
vertices, stitches them into edges per polygon, and returns either the
section data or the failure signal `False` when no edge was produced.

The shallow embedding below models:
  * Blender 3-vectors and 4×4 matrices acting on them (only the three
    affine rows matter when a 4×4 matrix multiplies a 3D vector) with
    exact rational coordinates,
  * Python `dict` as an insertion-ordered association list where
    assignment overwrites in place,
  * the classifier branch (`if (p0.z > 0) != (p1.z > 0) ... elif d0 <
    EPSILON ... elif d1 < EPSILON`),
  * the per-polygon stitcher including the coordinate-keyed
    deduplication `{tuple(verts[id]): id for id in ps}`,
  * the final `if edges: ... else: return False` as an `Option`.

The Blender operator calls after `from_pydata` (remove doubles, fill,
normal recalculation) act on the freshly created host object, not on the
input mesh, and are outside the embedded core.
-/

/-- `EPSILON = 0.000001` from the source, as an exact rational. -/
def EPSILON : ℚ := 1 / 1000000

/-- A Python `dict` as an insertion-ordered association list.
`dictSet` models `d[k] = v`: overwrite in place when the key is present,
append otherwise. -/
def dictSet {α β : Type} [DecidableEq α] : List (α × β) → α → β → List (α × β)
  | [], k, v => [(k, v)]
  | (k', v') :: d, k, v =>
      if k' = k then (k, v) :: d else (k', v') :: dictSet d k v

/-- Python `d[k]` / `k in d` lookup on the association list. -/
def dictGet? {α β : Type} [DecidableEq α] : List (α × β) → α → Option β
  | [], _ => none
  | (k', v') :: d, k => if k' = k then some v' else dictGet? d k

/-- A 3D vector with exact rational coordinates (Blender `Vector`). -/
@[ext]
structure Vec3 where
  x : ℚ
  y : ℚ
  z : ℚ
deriving DecidableEq, Repr

/-- The zero vector, used as the out-of-range default of list indexing. -/
def vzero : Vec3 := ⟨0, 0, 0⟩

instance : Inhabited Vec3 := ⟨vzero⟩

/-- Componentwise vector addition. -/
def vadd (a b : Vec3) : Vec3 := ⟨a.x + b.x, a.y + b.y, a.z + b.z⟩

/-- Componentwise vector subtraction. -/
def vsub (a b : Vec3) : Vec3 := ⟨a.x - b.x, a.y - b.y, a.z - b.z⟩

/-- Scalar multiplication `v * t`. -/
def vsmul (t : ℚ) (a : Vec3) : Vec3 := ⟨a.x * t, a.y * t, a.z * t⟩

/-- The three affine rows of a Blender 4×4 matrix: multiplying a 4×4
matrix by a 3D vector treats the vector as having w = 1 and keeps the
first three rows of the product. -/
structure Mat where
  a00 : ℚ
  a01 : ℚ
  a02 : ℚ
  a03 : ℚ
  a10 : ℚ
  a11 : ℚ
  a12 : ℚ
  a13 : ℚ
  a20 : ℚ
  a21 : ℚ
  a22 : ℚ
  a23 : ℚ
deriving DecidableEq, Repr

/-- `M @ v` for a 3D vector `v` (w taken as 1). -/
def matApply (M : Mat) (v : Vec3) : Vec3 :=
  ⟨M.a00 * v.x + M.a01 * v.y + M.a02 * v.z + M.a03,
   M.a10 * v.x + M.a11 * v.y + M.a12 * v.z + M.a13,
   M.a20 * v.x + M.a21 * v.y + M.a22 * v.z + M.a23⟩

/-- The identity transform. -/
def idMat : Mat := ⟨1, 0, 0, 0, 0, 1, 0, 0, 0, 0, 1, 0⟩

/-- A mesh edge: `ed.vertices[0]` and `ed.vertices[1]`. -/
structure MeshEdge where
  v0 : ℕ
  v1 : ℕ
deriving DecidableEq, Repr

/-- Blender's `ed.key`: the canonical (sorted) pair of vertex indices. -/
def edKey (e : MeshEdge) : ℕ × ℕ :=
  if e.v0 ≤ e.v1 then (e.v0, e.v1) else (e.v1, e.v0)

/-- The input mesh: vertex coordinates, edges, and polygons given as
their ordered vertex loops (from which Blender derives `p.edge_keys`). -/
structure Mesh where
  vertices : List Vec3
  edges : List MeshEdge
  polygons : List (List ℕ)
deriving DecidableEq, Repr

/-- Sorted pair of two vertex indices, as used by `edge_keys`. -/
def pairKey (a b : ℕ) : ℕ × ℕ := if a ≤ b then (a, b) else (b, a)

/-- Blender's `p.edge_keys`: the canonical keys of the consecutive
vertex pairs of the polygon loop, wrapping around. -/
def polyEdgeKeys (p : List ℕ) : List (ℕ × ℕ) :=
  (p.zip (p.rotate 1)).map fun q => pairKey q.1 q.2

/-- `m.vertices[i]` (total version; valid meshes index in range). -/
def vertGetD (vs : List Vec3) (i : ℕ) : Vec3 := vs.getD i vzero

/-- Lines 141–142: `t = d0 / (d0 + d1); co = p0 + (p1 - p0) * t` with
`d0 = abs(p0.z)` and `d1 = abs(p1.z)`. -/
def xsectPoint (p0 p1 : Vec3) : Vec3 :=
  vadd p0 (vsmul (|p0.z| / (|p0.z| + |p1.z|)) (vsub p1 p0))

/-- The classifier branch of the edge loop, lines 136–152: given the two
transformed endpoints, the intersection point this edge contributes, if
any.  The first branch is Python's `(p0.z > 0) != (p1.z > 0)` on bools;
`d0` and `d1` are `abs(p0.z)` and `abs(p1.z)`. -/
def edgeXsect (p0 p1 : Vec3) : Option Vec3 :=
  let d0 := |p0.z|
  let d1 := |p1.z|
  if (decide (p0.z > 0)) != (decide (p1.z > 0)) then
    some (xsectPoint p0 p1)
  else if d0 < EPSILON then some p0
  else if d1 < EPSILON then some p1
  else none

/-- The working state of one `section` call: the (read-only) input mesh
together with the per-call buffers `verts`, `edges` and `ed_xsect`. -/
structure SectState where
  mesh : Mesh
  verts : List Vec3
  edges : List (ℕ × ℕ)
  ed_xsect : List ((ℕ × ℕ) × ℕ)
deriving DecidableEq, Repr

/-- The fresh state at the top of `section` (lines 122–124). -/
def initState (m : Mesh) : SectState := ⟨m, [], [], []⟩

/-- Lines 131–134: `p0 = itM @ m.vertices[id0].co` for one endpoint. -/
def transVert (itM : Mat) (m : Mesh) (i : ℕ) : Vec3 :=
  matApply itM (vertGetD m.vertices i)

/-- One iteration of the edge loop (lines 126–152): transform both
endpoints, classify, and on a hit record `ed_xsect[ed.key] = len(verts)`
followed by `verts.append(co)`. -/
def classStep (itM : Mat) (st : SectState) (ed : MeshEdge) : SectState :=
  let p0 := transVert itM st.mesh ed.v0
  let p1 := transVert itM st.mesh ed.v1
  match edgeXsect p0 p1 with
  | some co =>
      { st with ed_xsect := dictSet st.ed_xsect (edKey ed) st.verts.length,
                verts := st.verts ++ [co] }
  | none => st

/-- The coordinate-keyed deduplication of line 166:
`{tuple(verts[id]): id for id in ps}`. -/
def uniqueByCo (verts : List Vec3) (ps : List ℕ) : List (Vec3 × ℕ) :=
  ps.foldl (fun d i => dictSet d (vertGetD verts i) i) []

/-- The body of the polygon loop for one polygon's edge-key list (lines
159–168): the (possibly empty) list of edges appended for it. -/
def stitchPoly (verts : List Vec3) (xs : List ((ℕ × ℕ) × ℕ))
    (ks : List (ℕ × ℕ)) : List (ℕ × ℕ) :=
  let ps := ks.filterMap (dictGet? xs)
  match ps with
  | [a, b] => [(a, b)]
  | _ =>
    if 2 < ps.length then
      match uniqueByCo verts ps with
      | [(_, a), (_, b)] => [(a, b)]
      | _ => []
    else []

/-- One iteration of the polygon loop (lines 154–168). -/
def stitchStep (st : SectState) (p : List ℕ) : SectState :=
  { st with edges := st.edges ++ stitchPoly st.verts st.ed_xsect (polyEdgeKeys p) }

/-- Both loops of `section` run on the fresh state (lines 122–168). -/
def sectionRun (itM : Mat) (m : Mesh) : SectState :=
  let st0 := initState m
  let st1 := st0.mesh.edges.foldl (classStep itM) st0
  st1.mesh.polygons.foldl stitchStep st1

/-- The data handed to `from_pydata` when a section exists. -/
structure SectionMesh where
  verts : List Vec3
  edges : List (ℕ × ℕ)
deriving DecidableEq, Repr

/-- `section(context, m, itM, FILL)`, lines 114–205: `none` models the
`return False` branch (no intersection); `some` models the returned
section object, carrying the vertex and edge lists passed to
`from_pydata`.  The subsequent host operations (remove doubles, optional
fill, normal recalculation) act on the newly created object only. -/
def section' (itM : Mat) (m : Mesh) (FILL : Bool) : Option SectionMesh :=
  let st := sectionRun itM m
  if st.edges.isEmpty then none else some ⟨st.verts, st.edges⟩

example : edgeXsect ⟨0, 0, -1⟩ ⟨2, 0, 1⟩ = some ⟨1, 0, 0⟩ := by
  norm_num [edgeXsect, xsectPoint, vadd, vsmul, vsub]

example : edgeXsect ⟨0, 0, 0⟩ ⟨2, 0, 1⟩ = some ⟨0, 0, 0⟩ := by
  norm_num [edgeXsect, xsectPoint, vadd, vsmul, vsub]

example :
    section' idMat ⟨[⟨0, 0, -1⟩, ⟨0, 0, 1⟩], [⟨0, 1⟩], []⟩ true = none := by
  norm_num [section', sectionRun, initState, classStep, transVert, matApply,
    vertGetD, edgeXsect, xsectPoint, vadd, vsmul, vsub, vzero, dictSet, edKey,
    idMat, stitchStep, stitchPoly]

/-- A single edge crossing the plane, belonging to no polygon. -/
def crossEdgeMesh : Mesh := ⟨[⟨0, 0, -1⟩, ⟨0, 0, 1⟩], [⟨0, 1⟩], []⟩

/-- A triangle crossing the plane with two of its edges. -/
def triMesh : Mesh :=
  ⟨[⟨0, 0, -1⟩, ⟨2, 0, 1⟩, ⟨0, 2, 1⟩], [⟨0, 1⟩, ⟨1, 2⟩, ⟨0, 2⟩], [[0, 1, 2]]⟩

/-- On the first classifier branch the z-coordinate of the interpolated
point vanishes exactly: `a` and `b` are the two endpoint heights. -/
lemma straddle_z_eq_zero (a b : ℚ)
    (h : (0 < a ∧ b ≤ 0) ∨ (a ≤ 0 ∧ 0 < b)) :
    a + (b - a) * (|a| / (|a| + |b|)) = 0 := by
  rcases h with ⟨ha, hb⟩ | ⟨ha, hb⟩
  · rw [abs_of_pos ha, abs_of_nonpos hb]
    have hd : a + -b ≠ 0 := by
      have : 0 < a + -b := by linarith
      exact this.ne'
    field_simp
    ring
  · rw [abs_of_nonpos ha, abs_of_pos hb]
    have hd : -a + b ≠ 0 := by
      have : 0 < -a + b := by linarith
      exact this.ne'
    field_simp
    ring

/-- The Python `(p0.z > 0) != (p1.z > 0)` test, as the disjunction of the
two sign configurations it accepts. -/
lemma signTest_cases {p0 p1 : Vec3}
    (h : (decide (p0.z > 0) != decide (p1.z > 0)) = true) :
    (0 < p0.z ∧ p1.z ≤ 0) ∨ (p0.z ≤ 0 ∧ 0 < p1.z) := by
  have hne : ¬(0 < p0.z ↔ 0 < p1.z) := fun hiff =>
    (bne_iff_ne.mp h) (decide_eq_decide.mpr hiff)
  by_cases h0 : 0 < p0.z
  · exact Or.inl ⟨h0, le_of_not_lt fun h1 => hne ⟨fun _ => h1, fun _ => h0⟩⟩
  · by_cases h1 : 0 < p1.z
    · exact Or.inr ⟨le_of_not_lt h0, h1⟩
    · exact absurd (iff_of_false h0 h1) hne

/-- On the first classifier branch the emitted point's z-coordinate is
exactly 0. -/
lemma xsectPoint_z_eq_zero {p0 p1 : Vec3}
    (h : (decide (p0.z > 0) != decide (p1.z > 0)) = true) :
    (xsectPoint p0 p1).z = 0 := by
  have := signTest_cases h
  simp only [xsectPoint, vadd, vsmul, vsub]
  exact straddle_z_eq_zero p0.z p1.z this

/-- **C1**: for an edge whose transformed endpoints satisfy
`(p0.z > 0) != (p1.z > 0)`, the classifier records exactly one
intersection point — the key is mapped to the new vertex index and the
single point `p0 + (p1 - p0) * (|p0.z| / (|p0.z| + |p1.z|))` is appended
— and that point's z-coordinate is 0 within EPSILON (here exactly 0, so
in particular within EPSILON, covering the strictly-opposite case). -/
theorem classStep_straddle (itM : Mat) (st : SectState) (ed : MeshEdge)
    (h : (decide ((transVert itM st.mesh ed.v0).z > 0) !=
          decide ((transVert itM st.mesh ed.v1).z > 0)) = true) :
    classStep itM st ed =
      { st with
        ed_xsect := dictSet st.ed_xsect (edKey ed) st.verts.length,
        verts := st.verts ++
          [xsectPoint (transVert itM st.mesh ed.v0)
            (transVert itM st.mesh ed.v1)] } ∧
    |(xsectPoint (transVert itM st.mesh ed.v0)
        (transVert itM st.mesh ed.v1)).z| < EPSILON := by
  constructor
  · simp only [classStep, edgeXsect, h, if_true]
  · rw [xsectPoint_z_eq_zero h]
    norm_num [EPSILON]

/-- Witness for C1 at a concrete straddling edge. -/
theorem classStep_straddle_witness :
    |(xsectPoint (transVert idMat crossEdgeMesh 0)
        (transVert idMat crossEdgeMesh 1)).z| < EPSILON :=
  (classStep_straddle idMat (initState crossEdgeMesh) ⟨0, 1⟩
    (by norm_num [transVert, matApply, vertGetD, idMat, crossEdgeMesh,
      initState])).2

/-- When `p0` lies exactly on the plane the interpolated point is `p0`
itself (`t = 0`). -/
lemma xsectPoint_left (p0 p1 : Vec3) (h0 : p0.z = 0) :
    xsectPoint p0 p1 = p0 := by
  ext <;> simp [xsectPoint, vadd, vsmul, vsub, h0]

/-- When `p1` lies exactly on the plane and `p0` does not, the
interpolated point is `p1` itself (`t = 1`). -/
lemma xsectPoint_right (p0 p1 : Vec3) (h1 : p1.z = 0) (h0 : p0.z ≠ 0) :
    xsectPoint p0 p1 = p1 := by
  have ht : |p0.z| / (|p0.z| + |p1.z|) = 1 := by
    rw [h1]
    simp [div_self, abs_ne_zero.mpr h0]
  ext <;> simp [xsectPoint, vadd, vsmul, vsub, ht]

/-- **C2**: for an edge with one transformed endpoint exactly on the
plane (z = 0) and the other off-plane (|z| ≥ EPSILON), the classifier
emits the on-plane endpoint unchanged, whichever endpoint is on-plane
and whatever the sign of the other endpoint's z. -/
theorem edgeXsect_vertex_on_plane (p0 p1 : Vec3) :
    (p0.z = 0 → EPSILON ≤ |p1.z| → edgeXsect p0 p1 = some p0)
    ∧ (p1.z = 0 → EPSILON ≤ |p0.z| → edgeXsect p0 p1 = some p1) := by
  constructor
  · intro h0 _
    by_cases hp : 0 < p1.z
    · have hg : (decide (p0.z > 0) != decide (p1.z > 0)) = true := by
        simp [h0, hp]
      simp [edgeXsect, hg, xsectPoint_left p0 p1 h0]
    · have hg : (decide (p0.z > 0) != decide (p1.z > 0)) = false := by
        simp [h0, hp]
      norm_num [edgeXsect, hg, h0, hp, EPSILON]
  · intro h1 h0eps
    have h0ne : p0.z ≠ 0 := by
      intro h
      rw [h] at h0eps
      norm_num [EPSILON] at h0eps
    by_cases hp : 0 < p0.z
    · have hg : (decide (p0.z > 0) != decide (p1.z > 0)) = true := by
        simp [h1, hp]
      simp [edgeXsect, hg, xsectPoint_right p0 p1 h1 h0ne]
    · have hg : (decide (p0.z > 0) != decide (p1.z > 0)) = false := by
        simp [h1, hp]
      have hd0 : ¬(|p0.z| < EPSILON) := not_lt.mpr h0eps
      have hE : (0 : ℚ) < EPSILON := by norm_num [EPSILON]
      simp [edgeXsect, hg, hp, hd0, h1, hE]

/-- Witness for C2 at a concrete edge with `p0` on the plane. -/
theorem edgeXsect_vertex_on_plane_witness :
    edgeXsect ⟨0, 0, 0⟩ ⟨2, 0, 1⟩ = some ⟨0, 0, 0⟩ :=
  (edgeXsect_vertex_on_plane ⟨0, 0, 0⟩ ⟨2, 0, 1⟩).1 rfl (by norm_num [EPSILON])

/-- **C3 (counterexample)**: two endpoints both within EPSILON of the
plane whose z-signs still differ in the sense of the code's test: the
sign test is `true` (not `false` as claimed) and the classifier emits an
interpolated point different from `p0`. -/
theorem coplanar_signTest_counterexample :
    |(Vec3.mk 0 0 (1 / 10000000)).z| < EPSILON ∧
    |(Vec3.mk 2 0 (-1 / 10000000)).z| < EPSILON ∧
    (decide ((Vec3.mk 0 0 (1 / 10000000)).z > 0) !=
      decide ((Vec3.mk 2 0 (-1 / 10000000)).z > 0)) = true ∧
    edgeXsect (Vec3.mk 0 0 (1 / 10000000)) (Vec3.mk 2 0 (-1 / 10000000)) ≠
      some (Vec3.mk 0 0 (1 / 10000000)) := by
  refine ⟨?_, ?_, ?_, ?_⟩ <;>
    norm_num [EPSILON, abs_lt, edgeXsect, xsectPoint, vadd, vsmul, vsub]

/-- **C3 (amended)**: for an edge whose transformed endpoints both lie
within EPSILON of the plane *and* whose sign test
`(p0.z > 0) != (p1.z > 0)` is false, the classifier takes the
`d0 < EPSILON` branch and emits the single point `p0`. -/
theorem edgeXsect_coplanar (p0 p1 : Vec3)
    (h0 : |p0.z| < EPSILON) (h1 : |p1.z| < EPSILON)
    (hs : (decide (p0.z > 0) != decide (p1.z > 0)) = false) :
    edgeXsect p0 p1 = some p0 := by
  simp [edgeXsect, hs, h0]

/-- Witness for the amended C3 at a concrete near-coplanar edge. -/
theorem edgeXsect_coplanar_witness :
    edgeXsect ⟨0, 0, 0⟩ ⟨1, 0, -1 / 10000000⟩ = some ⟨0, 0, 0⟩ :=
  edgeXsect_coplanar ⟨0, 0, 0⟩ ⟨1, 0, -1 / 10000000⟩
    (by norm_num [EPSILON]) (by norm_num [EPSILON, abs_lt]) (by norm_num)

/-- A successful dictionary lookup exhibits the key-value pair. -/
lemma dictGet?_mem {α β : Type} [DecidableEq α] {d : List (α × β)} {k : α}
    {v : β} (h : dictGet? d k = some v) : (k, v) ∈ d := by
  induction d with
  | nil => simp [dictGet?] at h
  | cons q d ih =>
    obtain ⟨k', v'⟩ := q
    by_cases hk : k' = k
    · subst hk
      simp [dictGet?] at h
      subst h
      exact List.mem_cons_self _ _
    · simp [dictGet?, hk] at h
      exact List.mem_cons_of_mem _ (ih h)

/-- Every pair of `dictSet d k v` comes from `d` or is the new pair. -/
lemma mem_dictSet {α β : Type} [DecidableEq α] {d : List (α × β)} {k : α}
    {v : β} {p : α × β} (h : p ∈ dictSet d k v) : p ∈ d ∨ p = (k, v) := by
  induction d with
  | nil =>
    simp [dictSet] at h
    exact Or.inr h
  | cons q d ih =>
    obtain ⟨k', v'⟩ := q
    by_cases hk : k' = k
    · subst hk
      simp [dictSet] at h
      rcases h with h | h
      · exact Or.inr (by simp [h])
      · exact Or.inl (List.mem_cons_of_mem _ h)
    · simp [dictSet, hk] at h
      rcases h with h | h
      · exact Or.inl (by simp [h])
      · rcases ih h with h' | h'
        · exact Or.inl (List.mem_cons_of_mem _ h')
        · exact Or.inr h'

/-- The key list of a dictionary assignment: unchanged on overwrite,
extended by the new key otherwise. -/
lemma dictSet_keys {α β : Type} [DecidableEq α] (d : List (α × β)) (k : α)
    (v : β) :
    (dictSet d k v).map Prod.fst =
      if k ∈ d.map Prod.fst then d.map Prod.fst
      else d.map Prod.fst ++ [k] := by
  induction d with
  | nil => simp [dictSet]
  | cons q d ih =>
    obtain ⟨k', v'⟩ := q
    by_cases hk : k' = k
    · subst hk
      simp [dictSet]
    · have hkk : ¬(k = k') := fun h => hk h.symm
      simp only [dictSet, if_neg hk, List.map_cons]
      by_cases hm : k ∈ d.map Prod.fst
      · simp [ih, hm, hkk]
      · simp [ih, hm, hkk]

/-- Assigning one key does not disturb lookups of other keys. -/
lemma dictGet?_dictSet_ne {α β : Type} [DecidableEq α] (d : List (α × β))
    {k k' : α} (v : β) (h : k' ≠ k) :
    dictGet? (dictSet d k v) k' = dictGet? d k' := by
  induction d with
  | nil => simp [dictSet, dictGet?, Ne.symm h]
  | cons q d ih =>
    obtain ⟨k₀, v₀⟩ := q
    by_cases hk : k₀ = k
    · subst hk
      simp [dictSet, dictGet?, Ne.symm h]
    · by_cases h0 : k₀ = k'
      · simp [dictSet, hk, dictGet?, h0, h]
      · simp [dictSet, hk, dictGet?, h0, ih]

/-- The edge loop never touches the input mesh. -/
lemma classStep_mesh (itM : Mat) (st : SectState) (ed : MeshEdge) :
    (classStep itM st ed).mesh = st.mesh := by
  rcases h : edgeXsect (transVert itM st.mesh ed.v0)
      (transVert itM st.mesh ed.v1) with _ | co <;>
    simp [classStep, h]

/-- The edge loop never touches the `edges` buffer. -/
lemma classStep_edges (itM : Mat) (st : SectState) (ed : MeshEdge) :
    (classStep itM st ed).edges = st.edges := by
  rcases h : edgeXsect (transVert itM st.mesh ed.v0)
      (transVert itM st.mesh ed.v1) with _ | co <;>
    simp [classStep, h]

lemma foldl_classStep_mesh (itM : Mat) (es : List MeshEdge) (st : SectState) :
    (es.foldl (classStep itM) st).mesh = st.mesh := by
  induction es generalizing st with
  | nil => rfl
  | cons e es ih => rw [List.foldl_cons, ih, classStep_mesh]

lemma foldl_classStep_edges (itM : Mat) (es : List MeshEdge) (st : SectState) :
    (es.foldl (classStep itM) st).edges = st.edges := by
  induction es generalizing st with
  | nil => rfl
  | cons e es ih => rw [List.foldl_cons, ih, classStep_edges]

/-- Each processed edge appends at most one vertex. -/
lemma classStep_verts_len (itM : Mat) (st : SectState) (ed : MeshEdge) :
    (classStep itM st ed).verts.length ≤ st.verts.length + 1 := by
  rcases h : edgeXsect (transVert itM st.mesh ed.v0)
      (transVert itM st.mesh ed.v1) with _ | co <;>
    simp [classStep, h]

/-- Keys after one classification step: old keys or this edge's key. -/
lemma classStep_keys_sub (itM : Mat) (st : SectState) (ed : MeshEdge)
    {k : ℕ × ℕ} (h : k ∈ (classStep itM st ed).ed_xsect.map Prod.fst) :
    k ∈ st.ed_xsect.map Prod.fst ∨ k = edKey ed := by
  rcases hx : edgeXsect (transVert itM st.mesh ed.v0)
      (transVert itM st.mesh ed.v1) with _ | co
  · exact Or.inl (by simpa [classStep, hx] using h)
  · have h' : k ∈ (dictSet st.ed_xsect (edKey ed) st.verts.length).map
        Prod.fst := by simpa [classStep, hx] using h
    rw [dictSet_keys] at h'
    by_cases hm : edKey ed ∈ st.ed_xsect.map Prod.fst
    · rw [if_pos hm] at h'
      exact Or.inl h'
    · rw [if_neg hm] at h'
      rcases List.mem_append.mp h' with h'' | h''
      · exact Or.inl h''
      · exact Or.inr (by simpa using h'')

lemma foldl_classStep_keys_sub (itM : Mat) (es : List MeshEdge)
    (st : SectState) (k : ℕ × ℕ)
    (h : k ∈ (es.foldl (classStep itM) st).ed_xsect.map Prod.fst) :
    k ∈ st.ed_xsect.map Prod.fst ∨ k ∈ es.map edKey := by
  induction es generalizing st with
  | nil => exact Or.inl (by simpa using h)
  | cons e es ih =>
    rw [List.foldl_cons] at h
    rcases ih _ h with h' | h'
    · rcases classStep_keys_sub itM st e h' with h'' | h''
      · exact Or.inl h''
      · exact Or.inr (by simp [h''])
    · exact Or.inr (by simp [h'])

/-- A fresh key keeps the key list duplicate-free. -/
lemma classStep_keys_nodup (itM : Mat) (st : SectState) (ed : MeshEdge)
    (hst : (st.ed_xsect.map Prod.fst).Nodup)
    (hf : edKey ed ∉ st.ed_xsect.map Prod.fst) :
    ((classStep itM st ed).ed_xsect.map Prod.fst).Nodup := by
  rcases hx : edgeXsect (transVert itM st.mesh ed.v0)
      (transVert itM st.mesh ed.v1) with _ | co
  · simpa [classStep, hx] using hst
  · have hkeys : (dictSet st.ed_xsect (edKey ed) st.verts.length).map
        Prod.fst = st.ed_xsect.map Prod.fst ++ [edKey ed] := by
      rw [dictSet_keys, if_neg hf]
    simp [classStep, hx, hkeys, List.nodup_append, hst, hf]

lemma foldl_classStep_keys_nodup (itM : Mat) (es : List MeshEdge)
    (st : SectState) (hnd : (es.map edKey).Nodup)
    (hst : (st.ed_xsect.map Prod.fst).Nodup)
    (hdisj : ∀ k ∈ st.ed_xsect.map Prod.fst, k ∉ es.map edKey) :
    ((es.foldl (classStep itM) st).ed_xsect.map Prod.fst).Nodup := by
  induction es generalizing st with
  | nil => simpa using hst
  | cons e es ih =>
    rw [List.foldl_cons]
    have hnd' : edKey e ∉ es.map edKey ∧ (es.map edKey).Nodup := by
      simpa [List.nodup_cons] using hnd
    have hf : edKey e ∉ st.ed_xsect.map Prod.fst := fun hmem =>
      hdisj _ hmem (by simp)
    refine ih _ hnd'.2 (classStep_keys_nodup itM st e hst hf) ?_
    intro k hk
    rcases classStep_keys_sub itM st e hk with h' | h'
    · exact fun hmem => hdisj k h' (by simp [hmem])
    · rw [h']
      exact hnd'.1

/-- Classifying an edge with a different key preserves a lookup. -/
lemma classStep_lookup_ne (itM : Mat) (st : SectState) (ed : MeshEdge)
    (k : ℕ × ℕ) (h : k ≠ edKey ed) :
    dictGet? (classStep itM st ed).ed_xsect k = dictGet? st.ed_xsect k := by
  rcases hx : edgeXsect (transVert itM st.mesh ed.v0)
      (transVert itM st.mesh ed.v1) with _ | co
  · simp [classStep, hx]
  · simp only [classStep, hx]
    exact dictGet?_dictSet_ne _ _ h

lemma foldl_classStep_lookup (itM : Mat) (es : List MeshEdge)
    (st : SectState) (k : ℕ × ℕ) (h : k ∉ es.map edKey) :
    dictGet? ((es.foldl (classStep itM) st).ed_xsect) k =
      dictGet? st.ed_xsect k := by
  induction es generalizing st with
  | nil => rfl
  | cons e es ih =>
    rw [List.foldl_cons, ih _ (fun hm => h (by simp [hm])),
      classStep_lookup_ne]
    exact fun he => h (by simp [he])

/-- **C4**: each edge contributes at most one appended vertex; with the
mesh's edge keys pairwise distinct (as Blender guarantees), each key
appears at most once in `ed_xsect`, and a binding made while processing
a prefix of the edge list survives to the final mapping unchanged
(stored once, never overwritten: first match wins). -/
theorem classify_first_match_wins (itM : Mat) (m : Mesh)
    (hnd : (m.edges.map edKey).Nodup) :
    (∀ st ed, (classStep itM st ed).verts.length ≤ st.verts.length + 1)
    ∧ ((m.edges.foldl (classStep itM) (initState m)).ed_xsect.map
        Prod.fst).Nodup
    ∧ (∀ es1 es2, m.edges = es1 ++ es2 →
        ∀ k i, dictGet? ((es1.foldl (classStep itM)
            (initState m)).ed_xsect) k = some i →
          dictGet? ((m.edges.foldl (classStep itM)
            (initState m)).ed_xsect) k = some i) := by
  refine ⟨fun st ed => classStep_verts_len itM st ed, ?_, ?_⟩
  · exact foldl_classStep_keys_nodup itM m.edges (initState m) hnd
      (by simp [initState]) (by simp [initState])
  · intro es1 es2 hsplit k i hget
    rw [hsplit, List.foldl_append]
    have hkmem : k ∈ (es1.foldl (classStep itM)
        (initState m)).ed_xsect.map Prod.fst :=
      List.mem_map.mpr ⟨(k, i), dictGet?_mem hget, rfl⟩
    have hk1 : k ∈ es1.map edKey := by
      rcases foldl_classStep_keys_sub itM es1 (initState m) k hkmem with h | h
      · simp [initState] at h
      · exact h
    have hk2 : k ∉ es2.map edKey := by
      rw [hsplit] at hnd
      have hdisj := (List.nodup_append.mp (by simpa using hnd)).2.2
      exact fun h2 => hdisj hk1 h2
    rw [foldl_classStep_lookup itM es2 _ k hk2]
    exact hget

/-- Witness for C4 on a concrete one-edge mesh. -/
theorem classify_first_match_wins_witness :
    ((crossEdgeMesh.edges.foldl (classStep idMat)
      (initState crossEdgeMesh)).ed_xsect.map Prod.fst).Nodup :=
  (classify_first_match_wins idMat crossEdgeMesh (by decide)).2.1

/-- **C5**: a polygon whose edge-key sequence has exactly 2 keys present
in `ed_xsect` (its mapped index sequence is `[a, b]`, in polygon edge
order) makes the stitcher append exactly the edge `(a, b)`. -/
theorem stitchStep_two_points (st : SectState) (p : List ℕ) (a b : ℕ)
    (h : (polyEdgeKeys p).filterMap (dictGet? st.ed_xsect) = [a, b]) :
    stitchStep st p = { st with edges := st.edges ++ [(a, b)] } := by
  simp [stitchStep, stitchPoly, h]

/-- Witness for C5 on a concrete quad with two classified edges. -/
theorem stitchStep_two_points_witness :
    stitchStep ⟨⟨[], [], []⟩, [], [], [((0, 1), 0), ((2, 3), 1)]⟩
        [0, 1, 2, 3] =
      ⟨⟨[], [], []⟩, [], [(0, 1)], [((0, 1), 0), ((2, 3), 1)]⟩ :=
  stitchStep_two_points ⟨⟨[], [], []⟩, [], [], [((0, 1), 0), ((2, 3), 1)]⟩
    [0, 1, 2, 3] 0 1 (by decide)

/-- A mapped index sequence shorter than 2 produces no edge. -/
lemma stitchPoly_of_lt2 (verts : List Vec3) (xs : List ((ℕ × ℕ) × ℕ))
    (ks : List (ℕ × ℕ))
    (h : (ks.filterMap (dictGet? xs)).length < 2) :
    stitchPoly verts xs ks = [] := by
  rcases hps : ks.filterMap (dictGet? xs) with _ | ⟨p1, _ | ⟨p2, t⟩⟩
  · simp [stitchPoly, hps]
  · simp [stitchPoly, hps]
  · rw [hps] at h
    simp at h
    omega

/-- With more than 2 mapped indices the stitcher's result is decided by
the coordinate-keyed deduplication dictionary. -/
lemma stitchPoly_of_gt2 (verts : List Vec3) (xs : List ((ℕ × ℕ) × ℕ))
    (ks : List (ℕ × ℕ))
    (h : 2 < (ks.filterMap (dictGet? xs)).length) :
    stitchPoly verts xs ks =
      match uniqueByCo verts (ks.filterMap (dictGet? xs)) with
      | [(_, a), (_, b)] => [(a, b)]
      | _ => [] := by
  rcases hps : ks.filterMap (dictGet? xs) with _ | ⟨p1, _ | ⟨p2, _ | ⟨p3, t⟩⟩⟩
  · rw [hps] at h
    simp at h
  · rw [hps] at h
    simp at h
  · rw [hps] at h
    simp at h
  · simp only [stitchPoly, hps]
    rw [if_pos (by simp only [List.length_cons]; omega)]

/-- Fold invariant of the dedup dictionary: every stored pair either was
in the accumulator or pairs an index of `ps` with its coordinate. -/
lemma uniqueByCo_aux_mem (verts : List Vec3) (ps : List ℕ) :
    ∀ (d : List (Vec3 × ℕ)) (p : Vec3 × ℕ),
      p ∈ ps.foldl (fun d i => dictSet d (vertGetD verts i) i) d →
      p ∈ d ∨ (p.2 ∈ ps ∧ p.1 = vertGetD verts p.2) := by
  induction ps with
  | nil =>
    intro d p h
    exact Or.inl (by simpa using h)
  | cons i ps ih =>
    intro d p h
    rw [List.foldl_cons] at h
    rcases ih _ p h with h' | h'
    · rcases mem_dictSet h' with h'' | h''
      · exact Or.inl h''
      · right
        rw [h'']
        exact ⟨by simp, rfl⟩
    · exact Or.inr ⟨List.mem_cons_of_mem _ h'.1, h'.2⟩

/-- Every entry of the dedup dictionary pairs an index of `ps` with its
coordinate. -/
lemma uniqueByCo_mem (verts : List Vec3) (ps : List ℕ) {p : Vec3 × ℕ}
    (h : p ∈ uniqueByCo verts ps) :
    p.2 ∈ ps ∧ p.1 = vertGetD verts p.2 := by
  rcases uniqueByCo_aux_mem verts ps [] p h with h' | h'
  · simp at h'
  · exact h'

/-- Fold invariant of the dedup dictionary's key list: it stays
duplicate-free and accumulates exactly the coordinates seen. -/
lemma uniqueByCo_aux_keys (verts : List Vec3) (ps : List ℕ) :
    ∀ d : List (Vec3 × ℕ), (d.map Prod.fst).Nodup →
      ((ps.foldl (fun d i => dictSet d (vertGetD verts i) i) d).map
        Prod.fst).Nodup ∧
      ((ps.foldl (fun d i => dictSet d (vertGetD verts i) i) d).map
          Prod.fst).toFinset =
        (d.map Prod.fst).toFinset ∪ (ps.map (vertGetD verts)).toFinset := by
  induction ps with
  | nil =>
    intro d hd
    simp [hd]
  | cons i ps ih =>
    intro d hd
    rw [List.foldl_cons]
    have hkeys := dictSet_keys d (vertGetD verts i) i
    by_cases hm : vertGetD verts i ∈ d.map Prod.fst
    · rw [if_pos hm] at hkeys
      obtain ⟨h1, h2⟩ := ih (dictSet d (vertGetD verts i) i)
        (by rw [hkeys]; exact hd)
      refine ⟨h1, ?_⟩
      rw [h2, hkeys, List.map_cons, List.toFinset_cons]
      have hmf : vertGetD verts i ∈ (d.map Prod.fst).toFinset :=
        List.mem_toFinset.mpr hm
      rw [Finset.union_insert,
        Finset.insert_eq_self.mpr (Finset.mem_union_left _ hmf)]
    · rw [if_neg hm] at hkeys
      have hd' : ((dictSet d (vertGetD verts i) i).map Prod.fst).Nodup := by
        rw [hkeys]
        simp [List.nodup_append, hd, hm]
      obtain ⟨h1, h2⟩ := ih _ hd'
      refine ⟨h1, ?_⟩
      rw [h2, hkeys, List.map_cons, List.toFinset_cons, List.toFinset_append]
      ext x
      simp
      tauto

/-- The size of the dedup dictionary is the number of distinct
coordinates among the mapped points. -/
lemma uniqueByCo_length (verts : List Vec3) (ps : List ℕ) :
    (uniqueByCo verts ps).length =
      ((ps.map (vertGetD verts)).toFinset).card := by
  obtain ⟨h1, h2⟩ := uniqueByCo_aux_keys verts ps [] (by simp)
  calc (uniqueByCo verts ps).length
      = ((uniqueByCo verts ps).map Prod.fst).length := by simp
    _ = ((uniqueByCo verts ps).map Prod.fst).toFinset.card :=
        (List.toFinset_card_of_nodup h1).symm
    _ = ((ps.map (vertGetD verts)).toFinset).card := by
        have h2' : ((uniqueByCo verts ps).map Prod.fst).toFinset =
            (([] : List (Vec3 × ℕ)).map Prod.fst).toFinset ∪
              (ps.map (vertGetD verts)).toFinset := h2
        rw [h2']
        simp

/-- **C6**: for a polygon with more than 2 mapped intersection indices
the stitcher deduplicates them by coordinate value: exactly 2 distinct
coordinates yield exactly one edge joining one representative index per
coordinate (indices from `ps` bearing the two different coordinates);
any other count yields no edge, and fewer than 2 mapped entries also
yield no edge. -/
theorem stitchPoly_dedup (verts : List Vec3) (xs : List ((ℕ × ℕ) × ℕ))
    (ks : List (ℕ × ℕ)) :
    ((ks.filterMap (dictGet? xs)).length < 2 → stitchPoly verts xs ks = [])
    ∧ (2 < (ks.filterMap (dictGet? xs)).length →
        ((((ks.filterMap (dictGet? xs)).map (vertGetD verts)).toFinset.card
            = 2 →
          ∃ a b, stitchPoly verts xs ks = [(a, b)]
            ∧ a ∈ ks.filterMap (dictGet? xs)
            ∧ b ∈ ks.filterMap (dictGet? xs)
            ∧ vertGetD verts a ≠ vertGetD verts b)
        ∧ ((((ks.filterMap (dictGet? xs)).map
              (vertGetD verts)).toFinset.card ≠ 2) →
          stitchPoly verts xs ks = []))) := by
  refine ⟨stitchPoly_of_lt2 verts xs ks, ?_⟩
  intro h2
  have hsp := stitchPoly_of_gt2 verts xs ks h2
  have hulen := uniqueByCo_length verts (ks.filterMap (dictGet? xs))
  constructor
  · intro hcard
    rw [hcard] at hulen
    rcases hu : uniqueByCo verts (ks.filterMap (dictGet? xs)) with
      _ | ⟨⟨k1, a⟩, _ | ⟨⟨k2, b⟩, t⟩⟩
    · rw [hu] at hulen
      simp at hulen
    · rw [hu] at hulen
      simp at hulen
    · have ht : t = [] := by
        rw [hu] at hulen
        simpa using hulen
      subst ht
      have hmem1 : ((k1, a) : Vec3 × ℕ) ∈
          uniqueByCo verts (ks.filterMap (dictGet? xs)) := by
        rw [hu]
        exact List.mem_cons_self _ _
      have hmem2 : ((k2, b) : Vec3 × ℕ) ∈
          uniqueByCo verts (ks.filterMap (dictGet? xs)) := by
        rw [hu]
        exact List.mem_cons_of_mem _ (List.mem_cons_self _ _)
      obtain ⟨haMem, hka⟩ := uniqueByCo_mem verts _ hmem1
      obtain ⟨hbMem, hkb⟩ := uniqueByCo_mem verts _ hmem2
      refine ⟨a, b, by rw [hsp, hu], haMem, hbMem, ?_⟩
      have hnd : ((uniqueByCo verts
          (ks.filterMap (dictGet? xs))).map Prod.fst).Nodup :=
        (uniqueByCo_aux_keys verts (ks.filterMap (dictGet? xs)) []
          (by simp)).1
      rw [hu] at hnd
      simp at hnd
      intro hco
      exact hnd (hka.trans (hco.trans hkb.symm))
  · intro hcard
    rcases hu : uniqueByCo verts (ks.filterMap (dictGet? xs)) with
      _ | ⟨⟨k1, a⟩, _ | ⟨⟨k2, b⟩, t⟩⟩
    · rw [hsp, hu]
    · rw [hsp, hu]
    · rcases ht : t with _ | ⟨c, t'⟩
      · exfalso
        apply hcard
        rw [← hulen, hu, ht]
        rfl
      · rw [hsp, hu, ht]

/-- Witness for C6 on three mapped indices with two distinct
coordinates. -/
theorem stitchPoly_dedup_witness :
    ∃ a b,
      stitchPoly [⟨0, 0, 0⟩, ⟨1, 0, 0⟩, ⟨0, 0, 0⟩]
          [((0, 1), 0), ((1, 2), 1), ((2, 3), 2)]
          [(0, 1), (1, 2), (2, 3)] = [(a, b)]
      ∧ a ∈ ([(0, 1), (1, 2), (2, 3)] : List (ℕ × ℕ)).filterMap
          (dictGet? [((0, 1), 0), ((1, 2), 1), ((2, 3), 2)])
      ∧ b ∈ ([(0, 1), (1, 2), (2, 3)] : List (ℕ × ℕ)).filterMap
          (dictGet? [((0, 1), 0), ((1, 2), 1), ((2, 3), 2)])
      ∧ vertGetD [⟨0, 0, 0⟩, ⟨1, 0, 0⟩, ⟨0, 0, 0⟩] a ≠
          vertGetD [⟨0, 0, 0⟩, ⟨1, 0, 0⟩, ⟨0, 0, 0⟩] b :=
  ((stitchPoly_dedup [⟨0, 0, 0⟩, ⟨1, 0, 0⟩, ⟨0, 0, 0⟩]
      [((0, 1), 0), ((1, 2), 1), ((2, 3), 2)]
      [(0, 1), (1, 2), (2, 3)]).2 (by decide)).1 (by decide)

/-- The polygon loop never touches the input mesh. -/
lemma stitchStep_mesh (st : SectState) (p : List ℕ) :
    (stitchStep st p).mesh = st.mesh := rfl

/-- The polygon loop never touches the vertex buffer. -/
lemma stitchStep_verts (st : SectState) (p : List ℕ) :
    (stitchStep st p).verts = st.verts := rfl

/-- The polygon loop never touches the classification mapping. -/
lemma stitchStep_xsect (st : SectState) (p : List ℕ) :
    (stitchStep st p).ed_xsect = st.ed_xsect := rfl

lemma foldl_stitchStep_mesh (ps : List (List ℕ)) (st : SectState) :
    (ps.foldl stitchStep st).mesh = st.mesh := by
  induction ps generalizing st with
  | nil => rfl
  | cons p ps ih => rw [List.foldl_cons, ih, stitchStep_mesh]

lemma foldl_stitchStep_verts (ps : List (List ℕ)) (st : SectState) :
    (ps.foldl stitchStep st).verts = st.verts := by
  induction ps generalizing st with
  | nil => rfl
  | cons p ps ih => rw [List.foldl_cons, ih, stitchStep_verts]

/-- Unfolding of both loops of `section` with the mesh projections
resolved. -/
lemma sectionRun_eq (itM : Mat) (m : Mesh) :
    sectionRun itM m =
      m.polygons.foldl stitchStep
        (m.edges.foldl (classStep itM) (initState m)) := by
  show (m.edges.foldl (classStep itM) (initState m)).mesh.polygons.foldl
      stitchStep (m.edges.foldl (classStep itM) (initState m)) = _
  rw [foldl_classStep_mesh]
  rfl

/-- **C7**: `section` returns the failure signal `False` exactly when the
stitched edge list is empty — even with intersection vertices present, as
the second conjunct shows on a mesh with a crossing edge that belongs to
no polygon — and a non-empty edge list always yields a section mesh. -/
theorem section_no_intersection (itM : Mat) (m : Mesh) (FILL : Bool) :
    (section' itM m FILL = none ↔ (sectionRun itM m).edges = [])
    ∧ (∃ itM' m' f', (sectionRun itM' m').verts ≠ [] ∧
        section' itM' m' f' = none) := by
  constructor
  · rcases hE : (sectionRun itM m).edges with _ | ⟨e, es⟩ <;>
      simp [section', hE]
  · refine ⟨idMat, crossEdgeMesh, true, ?_, ?_⟩
    · norm_num [sectionRun, initState, crossEdgeMesh, classStep, transVert,
        matApply, vertGetD, edgeXsect, xsectPoint, vadd, vsmul, vsub, vzero,
        dictSet, edKey, idMat, stitchStep, stitchPoly]
    · norm_num [section', sectionRun, initState, crossEdgeMesh, classStep,
        transVert, matApply, vertGetD, edgeXsect, xsectPoint, vadd, vsmul,
        vsub, vzero, dictSet, edKey, idMat, stitchStep, stitchPoly]

/-- Witness for C7: the one-edge mesh yields the failure signal. -/
theorem section_no_intersection_witness :
    section' idMat crossEdgeMesh true = none :=
  (section_no_intersection idMat crossEdgeMesh true).1.mpr
    (by norm_num [sectionRun, initState, crossEdgeMesh, classStep, transVert,
      matApply, vertGetD, edgeXsect, xsectPoint, vadd, vsmul, vsub, vzero,
      dictSet, edKey, idMat, stitchStep, stitchPoly])

/-- **C8**: one call of `section` leaves the input mesh unchanged: both
loops only read `m.vertices`, `m.edges` and `m.polygons` and write only
the per-call buffers, so the mesh component of the final state is the
input mesh itself. -/
theorem section_input_mesh_unchanged (itM : Mat) (m : Mesh) :
    (sectionRun itM m).mesh = m := by
  rw [sectionRun_eq, foldl_stitchStep_mesh, foldl_classStep_mesh]
  rfl

/-- **C9**: `section` is deterministic — equal inputs give equal
classifier/stitcher states and equal results; no state is carried
across calls. -/
theorem section_deterministic (itM₁ itM₂ : Mat) (m₁ m₂ : Mesh)
    (f₁ f₂ : Bool) (hM : itM₁ = itM₂) (hm : m₁ = m₂) (hf : f₁ = f₂) :
    sectionRun itM₁ m₁ = sectionRun itM₂ m₂ ∧
    section' itM₁ m₁ f₁ = section' itM₂ m₂ f₂ := by
  subst hM hm hf
  exact ⟨rfl, rfl⟩

/-- Witness for C9 at a concrete repeated invocation. -/
theorem section_deterministic_witness :
    sectionRun idMat crossEdgeMesh = sectionRun idMat crossEdgeMesh ∧
    section' idMat crossEdgeMesh true = section' idMat crossEdgeMesh true :=
  section_deterministic idMat idMat crossEdgeMesh crossEdgeMesh true true
    rfl rfl rfl

/-- Every index emitted by the stitcher for one polygon is a value
stored in the classification mapping. -/
lemma stitchPoly_mem_vals (verts : List Vec3) (xs : List ((ℕ × ℕ) × ℕ))
    (ks : List (ℕ × ℕ)) {e : ℕ × ℕ} (h : e ∈ stitchPoly verts xs ks) :
    (∃ k, (k, e.1) ∈ xs) ∧ (∃ k, (k, e.2) ∈ xs) := by
  have hps : ∀ i ∈ ks.filterMap (dictGet? xs), ∃ k, (k, i) ∈ xs := by
    intro i hi
    rcases List.mem_filterMap.mp hi with ⟨k, _, hk⟩
    exact ⟨k, dictGet?_mem hk⟩
  rcases hlist : ks.filterMap (dictGet? xs) with _ | ⟨p1, _ | ⟨p2, _ | ⟨p3, t⟩⟩⟩
  · rw [stitchPoly_of_lt2 verts xs ks (by rw [hlist]; simp)] at h
    simp at h
  · rw [stitchPoly_of_lt2 verts xs ks (by rw [hlist]; simp)] at h
    simp at h
  · have h2 : stitchPoly verts xs ks = [(p1, p2)] := by
      simp [stitchPoly, hlist]
    rw [h2] at h
    simp at h
    subst h
    exact ⟨hps p1 (by rw [hlist]; simp), hps p2 (by rw [hlist]; simp)⟩
  · have hgt : 2 < (ks.filterMap (dictGet? xs)).length := by
      rw [hlist]
      simp only [List.length_cons]
      omega
    rw [stitchPoly_of_gt2 verts xs ks hgt] at h
    rcases hu : uniqueByCo verts (ks.filterMap (dictGet? xs)) with
      _ | ⟨⟨k1, a⟩, _ | ⟨⟨k2, b⟩, _ | ⟨c, t''⟩⟩⟩
    · rw [hu] at h
      simp at h
    · rw [hu] at h
      simp at h
    · rw [hu] at h
      simp at h
      subst h
      have hmem1 : ((k1, a) : Vec3 × ℕ) ∈
          uniqueByCo verts (ks.filterMap (dictGet? xs)) := by
        rw [hu]
        exact List.mem_cons_self _ _
      have hmem2 : ((k2, b) : Vec3 × ℕ) ∈
          uniqueByCo verts (ks.filterMap (dictGet? xs)) := by
        rw [hu]
        exact List.mem_cons_of_mem _ (List.mem_cons_self _ _)
      exact ⟨hps a (uniqueByCo_mem verts _ hmem1).1,
        hps b (uniqueByCo_mem verts _ hmem2).1⟩
    · rw [hu] at h
      simp at h

/-- Classification keeps every mapped index below the vertex count. -/
lemma classStep_vals_lt (itM : Mat) (st : SectState) (ed : MeshEdge)
    (h : ∀ q ∈ st.ed_xsect, q.2 < st.verts.length) :
    ∀ q ∈ (classStep itM st ed).ed_xsect,
      q.2 < (classStep itM st ed).verts.length := by
  rcases hx : edgeXsect (transVert itM st.mesh ed.v0)
      (transVert itM st.mesh ed.v1) with _ | co
  · simpa [classStep, hx] using h
  · intro q hq
    simp only [classStep, hx] at hq ⊢
    rcases mem_dictSet hq with h' | h'
    · have := h q h'
      simp only [List.length_append, List.length_singleton]
      omega
    · rw [h']
      simp

lemma foldl_classStep_vals_lt (itM : Mat) (es : List MeshEdge)
    (st : SectState) (h : ∀ q ∈ st.ed_xsect, q.2 < st.verts.length) :
    ∀ q ∈ (es.foldl (classStep itM) st).ed_xsect,
      q.2 < (es.foldl (classStep itM) st).verts.length := by
  induction es generalizing st with
  | nil => simpa using h
  | cons e es ih =>
    rw [List.foldl_cons]
    exact ih _ (classStep_vals_lt itM st e h)

/-- Every edge accumulated by the polygon loop was already present or
was produced by the stitcher for one of the polygons, against the
unchanged vertex list and mapping. -/
lemma foldl_stitchStep_edges_mem (ps : List (List ℕ)) (st : SectState)
    {e : ℕ × ℕ} (h : e ∈ (ps.foldl stitchStep st).edges) :
    e ∈ st.edges ∨
      ∃ p ∈ ps, e ∈ stitchPoly st.verts st.ed_xsect (polyEdgeKeys p) := by
  induction ps generalizing st with
  | nil => exact Or.inl (by simpa using h)
  | cons p ps ih =>
    rw [List.foldl_cons] at h
    rcases ih _ h with h' | h'
    · rcases List.mem_append.mp (by simpa [stitchStep] using h') with
        h'' | h''
      · exact Or.inl h''
      · exact Or.inr ⟨p, by simp, h''⟩
    · obtain ⟨p', hp', he'⟩ := h'
      exact Or.inr ⟨p', by simp [hp'], he'⟩

/-- **C10**: every edge emitted by the stitcher references vertex
indices strictly below the length of the accumulated vertex list (each
mapped index was the list's length at the moment its vertex was
appended); yet the vertex list can hold vertices referenced by no edge,
as on a crossing edge that belongs to no polygon. -/
theorem section_edges_reference_valid (itM : Mat) (m : Mesh) :
    (∀ e ∈ (sectionRun itM m).edges,
      e.1 < (sectionRun itM m).verts.length ∧
      e.2 < (sectionRun itM m).verts.length)
    ∧ (∃ itM' m', (sectionRun itM' m').verts ≠ [] ∧
        (sectionRun itM' m').edges = []) := by
  constructor
  · intro e he
    rw [sectionRun_eq] at he ⊢
    rw [foldl_stitchStep_verts]
    have hvals : ∀ q ∈ (m.edges.foldl (classStep itM)
        (initState m)).ed_xsect,
        q.2 < (m.edges.foldl (classStep itM) (initState m)).verts.length :=
      foldl_classStep_vals_lt itM m.edges (initState m)
        (by simp [initState])
    rcases foldl_stitchStep_edges_mem m.polygons _ he with h' | ⟨p, _, he'⟩
    · rw [foldl_classStep_edges] at h'
      simp [initState] at h'
    · obtain ⟨⟨k1, hk1⟩, ⟨k2, hk2⟩⟩ := stitchPoly_mem_vals _ _ _ he'
      exact ⟨hvals _ hk1, hvals _ hk2⟩
  · refine ⟨idMat, crossEdgeMesh, ?_, ?_⟩
    · norm_num [sectionRun, initState, crossEdgeMesh, classStep, transVert,
        matApply, vertGetD, edgeXsect, xsectPoint, vadd, vsmul, vsub, vzero,
        dictSet, edKey, idMat, stitchStep, stitchPoly]
    · norm_num [sectionRun, initState, crossEdgeMesh, classStep, transVert,
        matApply, vertGetD, edgeXsect, xsectPoint, vadd, vsmul, vsub, vzero,
        dictSet, edKey, idMat, stitchStep, stitchPoly]

/-- Witness for C10 on a triangle crossed by the plane in two edges. -/
theorem section_edges_reference_valid_witness :
    (0 : ℕ) < (sectionRun idMat triMesh).verts.length ∧
    (1 : ℕ) < (sectionRun idMat triMesh).verts.length :=
  (section_edges_reference_valid idMat triMesh).1 (0, 1)
    (by norm_num [EPSILON, sectionRun, initState, triMesh, classStep,
      transVert, matApply, vertGetD, edgeXsect, xsectPoint, vadd, vsmul,
      vsub, vzero, dictSet, edKey, idMat, stitchStep, stitchPoly,
      polyEdgeKeys, pairKey, List.rotate, uniqueByCo, dictGet?]
      <;> decide)
